import Mathlib

/-!
# Verification of the card_bot core (OCR field extraction + encrypted card store)

Shallow embedding of `src/card_bot/ocr_parser.py` (class `CardParser`) and
`src/card_bot/database.py` (class `SecureCardDatabase`), together with
theorems settling the frozen claims about them.

Conventions of the embedding:
* Python strings are Lean `String`s / `List Char`; the regular-expression
  searches of the source are translated into explicit character scanners
  that implement exactly the semantics of the concrete patterns used
  (`\b\d{16}\b`, `\d{16}`, `\b(\d{4}[\s\-]?\d{4}[\s\-]?\d{4}[\s\-]?\d{4})\b`,
  `\b(0[1-9]|1[0-2])[/\-\s]?(\d{2})\b`, `\b(\d{3})\b`).  The character
  classes `\d`, `\w`, `\s` are modelled by their ASCII parts.
* Fallible Python code (decryption, JSON parsing) returns `Option`/`Except`.
* The third-party pieces (the `cryptography.fernet.Fernet` cipher and the
  `json` module) are modelled by their documented contracts; everything
  written in the repository itself is translated directly from the source.
-/

set_option maxHeartbeats 2000000
set_option maxRecDepth 2000

namespace CardBot

/-! ## Character classes (ASCII parts of the Python regex classes) -/
/-- ASCII part of the Python regex class `\s` (whitespace). -/
def isPySpace (c : Char) : Bool :=
  c = ' ' || c = '\t' || c = '\n' || c = '\r' || c = '\x0b' || c = '\x0c'

/-- ASCII part of the Python regex class `\w` (word character). -/
def isWordChar (c : Char) : Bool :=
  c.isAlpha || c.isDigit || c = '_'

/-- Value of a decimal digit character, as Python's `int(d)` computes it. -/
def digitVal (c : Char) : Nat := c.toNat - 48

/-! ## `CardParser.validate_card_number` (ocr_parser.py lines 262-290) -/
/-- The loop
`for i, digit in enumerate(reversed(digits)): if i % 2 == 1: digit *= 2; if digit > 9: digit -= 9; checksum += digit`
of `validate_card_number`, with the running index made explicit.  The
argument list is the (already reversed) digit list. -/
def luhnChecksum : Nat → List Nat → Nat
  | _, [] => 0
  | i, d :: ds =>
    (if i % 2 = 1 then (if d * 2 > 9 then d * 2 - 9 else d * 2) else d) +
      luhnChecksum (i + 1) ds

/-- The `CardParser.validate_card_number`: strip non-digits
(`re.sub(r'\D', '', card_number)`), require length 16, then check the Luhn
sum of the reversed digit list. -/
def validate_card_number (card_number : String) : Bool :=
  let clean := card_number.data.filter Char.isDigit
  if clean.length ≠ 16 then
    false
  else
    luhnChecksum 0 ((clean.map digitVal).reverse) % 10 = 0

/-! Reference (claim-side) formulation of the Luhn rule: iterate digits from
the rightmost, double every second digit starting with the second-from-right,
subtract 9 from any doubled result exceeding 9, and sum. -/
/-- Claim-side Luhn transform on the digits listed from the rightmost:
the first digit is kept, every second one is doubled (with 9 subtracted
from a doubled result exceeding 9). -/
def luhnSpecTransform : List Nat → List Nat
  | [] => []
  | [d] => [d]
  | d :: e :: rest =>
    d :: (if e * 2 > 9 then e * 2 - 9 else e * 2) :: luhnSpecTransform rest

/-- Claim-side reference Luhn predicate on a digit list (most significant
first, as written): the transformed right-to-left digit sum is divisible
by 10. -/
def luhnSpecHolds (digits : List Nat) : Prop :=
  (luhnSpecTransform digits.reverse).sum % 10 = 0

instance (digits : List Nat) : Decidable (luhnSpecHolds digits) := by
  unfold luhnSpecHolds; infer_instance

/-! ## Regex scanners

Each Python regex search of the source is translated into a matcher
`Option Char → List Char → Option α` (the first argument is the character
preceding the current position, used for `\b` word-boundary tests) together
with the generic left-to-right scan `scanFirst` that returns the leftmost
match, exactly as `re.findall(...)[0]` does. -/
/-- Character class `[\s\-]` used by the separator-stripping substitutions
and the optional separators of `CARD_NUMBER_PATTERN`. -/
def isSepChar (c : Char) : Bool := isPySpace c || c = '-'

/-- The `re.sub(r'[\s\-]', '', text)`: remove all whitespace and hyphens. -/
def pyStripSep (l : List Char) : List Char := l.filter (fun c => !isSepChar c)

/-- The `\b` test between a preceding character (`none` at the start of the
string) and a following word character, generalized over the class `bnd`
of characters accepted as a bound. -/
def boundaryBefore (bnd : Char → Bool) : Option Char → Bool
  | none => true
  | some c => bnd c

/-- The `\b` test between a preceding word character and the rest of the
string (`[]` = end of string), generalized over the accepted bound class. -/
def boundaryAfterL (bnd : Char → Bool) : List Char → Bool
  | [] => true
  | c :: _ => bnd c

/-- Non-word characters: the bound class realizing `\b` next to a digit. -/
def notWordB (c : Char) : Bool := !isWordChar c

/-- Generic leftmost-match scan: try the matcher at every position of the
string from left to right, threading the previous character for `\b`
tests, and return the first match. -/
def scanFirst (m : Option Char → List Char → Option α) : Option Char → List Char → Option α
  | _, [] => none
  | prev, c :: cs =>
    match m prev (c :: cs) with
    | some r => some r
    | none => scanFirst m (some c) cs

/-- Matcher for `\b\d{16}\b` at the current position (with the bound class
as a parameter, so that the claim-side "bounded by non-digit" variant can
be stated with the same matcher). -/
def match16At (bnd : Char → Bool) (prev : Option Char) (l : List Char) : Option (List Char) :=
  let run := l.take 16
  if boundaryBefore bnd prev && run.length == 16 && run.all Char.isDigit &&
      boundaryAfterL bnd (l.drop 16) then
    some run
  else
    none

/-- The `\d{4}` at the current position. -/
def takeDigits4 : List Char → Option (List Char × List Char)
  | a :: b :: c :: d :: r =>
    if a.isDigit && b.isDigit && c.isDigit && d.isDigit then some ([a, b, c, d], r) else none
  | _ => none

/-- The `[\s\-]?\d{4}` at the current position: the optional separator is
greedy, and since a separator is never a digit the regex backtracking
collapses to: if a separator is present it must be followed by four
digits, otherwise four digits must start here.  Returns (consumed
separator, digit group, rest). -/
def sepThenDigits4 (l : List Char) : Option (List Char × List Char × List Char) :=
  match l with
  | [] => none
  | c :: r =>
    if isSepChar c then (takeDigits4 r).map (fun p => ([c], p.1, p.2))
    else (takeDigits4 l).map (fun p => (([] : List Char), p.1, p.2))

/-- Matcher for `CARD_NUMBER_PATTERN = \b(\d{4}[\s\-]?\d{4}[\s\-]?\d{4}[\s\-]?\d{4})\b`
at the current position, returning the matched group.  `useB` selects
whether the two `\b` anchors are checked (the claim text omits them). -/
def matchGroupedAt (useB : Bool) (prev : Option Char) (l : List Char) : Option (List Char) :=
  if useB && !boundaryBefore notWordB prev then none
  else
    match takeDigits4 l with
    | none => none
    | some (g1, r1) =>
      match sepThenDigits4 r1 with
      | none => none
      | some (s1, g2, r2) =>
        match sepThenDigits4 r2 with
        | none => none
        | some (s2, g3, r3) =>
          match sepThenDigits4 r3 with
          | none => none
          | some (s3, g4, r4) =>
            if useB && !boundaryAfterL notWordB r4 then none
            else some (g1 ++ s1 ++ g2 ++ s2 ++ g3 ++ s3 ++ g4)

/-- The `re.findall(r'\d{16}', ...)`: all non-overlapping 16-digit matches,
scanning left to right and continuing after each match. -/
def findAll16 : List Char → List (List Char)
  | [] => []
  | c :: cs =>
    let run := (c :: cs).take 16
    if run.length == 16 && run.all Char.isDigit then
      run :: findAll16 ((c :: cs).drop 16)
    else
      findAll16 cs
termination_by l => l.length
decreasing_by
  · simp only [List.length_drop, List.length_cons]; omega
  · simp only [List.length_cons]; omega

/-- The `f"{n[0:4]} {n[4:8]} {n[8:12]} {n[12:16]}"`: regroup a 16-digit run
with a space every 4 digits. -/
def format4 (run : List Char) : List Char :=
  run.take 4 ++ ' ' :: (run.drop 4).take 4 ++ ' ' :: (run.drop 8).take 4 ++
    ' ' :: (run.drop 12).take 4

/-- The `CardParser.parse_card_number` (ocr_parser.py lines 71-98): strip
whitespace/hyphens, return the first `\b\d{16}\b` run formatted in groups
of four; otherwise fall back to `CARD_NUMBER_PATTERN` on the original text
and return that match with separators stripped; `None` if both fail. -/
def parse_card_number (text : String) : Option String :=
  let clean := pyStripSep text.data
  match scanFirst (match16At notWordB) none clean with
  | some run => some (format4 run).asString
  | none =>
    (scanFirst (matchGroupedAt true) none text.data).map
      (fun g => (pyStripSep g).asString)

/-- The `CardParser.parse_all_card_numbers` (ocr_parser.py lines 100-125):
strip whitespace/hyphens, return every `\d{16}` match (non-overlapping,
left to right), each formatted in groups of four. -/
def parse_all_card_numbers (text : String) : List String :=
  (findAll16 (pyStripSep text.data)).map (fun run => (format4 run).asString)

/-! ## Expiry and CVV parsing -/
/-- Character class `[/\-\s]` (the optional expiry separator). -/
def isExpSep (c : Char) : Bool := c = '/' || c = '-' || isPySpace c

/-- The month alternation `(0[1-9]|1[0-2])`. -/
def monthOk (m1 m2 : Char) : Bool :=
  (m1 = '0' && '1' ≤ m2 && m2 ≤ '9') || (m1 = '1' && '0' ≤ m2 && m2 ≤ '2')

/-- Matcher for `EXPIRY_PATTERN = \b(0[1-9]|1[0-2])[/\-\s]?(\d{2})\b` at
the current position.  Returns (month group, year group, number of
characters consumed by the whole match).  The optional separator is
greedy; since a separator character is never a digit, backtracking
collapses to: try the separator form first, then the separator-less form. -/
def matchExpiryAt (prev : Option Char) (l : List Char) : Option (List Char × List Char × Nat) :=
  match l with
  | m1 :: m2 :: rest =>
    if boundaryBefore notWordB prev && monthOk m1 m2 then
      match rest with
      | s :: y1 :: y2 :: rest2 =>
        if isExpSep s && y1.isDigit && y2.isDigit && boundaryAfterL notWordB rest2 then
          some ([m1, m2], [y1, y2], 5)
        else if s.isDigit && y1.isDigit && boundaryAfterL notWordB (y2 :: rest2) then
          some ([m1, m2], [s, y1], 4)
        else
          none
      | [s, y1] =>
        if s.isDigit && y1.isDigit then some ([m1, m2], [s, y1], 4) else none
      | _ => none
    else
      none
  | _ => none

/-- The `CardParser.parse_expiry` (ocr_parser.py lines 127-144): first
`EXPIRY_PATTERN` match, rendered as `MM/YY`. -/
def parse_expiry (text : String) : Option String :=
  (scanFirst matchExpiryAt none text.data).map
    (fun r => (r.1 ++ '/' :: r.2.1).asString)

/-- A successful expiry match consumes between 1 and `l.length` characters
(in fact 4 or 5); needed for termination of the substitution scan. -/
def matchExpiryAt_consumed (prev : Option Char) (l : List Char)
    (m y : List Char) (n : Nat) (h : matchExpiryAt prev l = some (m, y, n)) :
    0 < n ∧ n ≤ l.length := by
  unfold matchExpiryAt at h
  rcases l with _ | ⟨m1, _ | ⟨m2, _ | ⟨s, _ | ⟨y1, _ | ⟨y2, rest2⟩⟩⟩⟩⟩ <;>
    simp only [List.length_cons, List.length_nil] <;>
    (try simp at h) <;>
    (try split_ifs at h <;> simp at h) <;>
    omega

/-- The `re.sub(r'\b(0[1-9]|1[0-2])[/\-\s]?\d{2}\b', '', text)` (ocr_parser.py
line 168): delete every non-overlapping expiry-shaped match, scanning left
to right and continuing after each deleted match; the `\b` test of a later
match still sees the last character of the deleted one, as in Python. -/
def removeExpiry (prev : Option Char) (l : List Char) : List Char :=
  match l with
  | [] => []
  | c :: cs =>
    match h : matchExpiryAt prev (c :: cs) with
    | some (_, y, n) => removeExpiry (y.getLastD c) ((c :: cs).drop n)
    | none => c :: removeExpiry (some c) cs
termination_by l.length
decreasing_by
  all_goals simp only [List.length_drop, List.length_cons]
  · have := matchExpiryAt_consumed _ _ _ _ _ h
    simp only [List.length_cons] at this
    omega
  · omega

/-- Matcher for `CVV_PATTERN = \b(\d{3})\b` at the current position. -/
def match3At (prev : Option Char) (l : List Char) : Option (List Char) :=
  match l with
  | d1 :: d2 :: d3 :: rest =>
    if boundaryBefore notWordB prev && d1.isDigit && d2.isDigit && d3.isDigit &&
        boundaryAfterL notWordB rest then
      some [d1, d2, d3]
    else
      none
  | _ => none

/-- Python `str.replace(pat, '')`: delete every non-overlapping occurrence
of `pat`, scanning left to right (for empty `pat` the result is the input,
as in Python). -/
def replaceAll (pat : List Char) : List Char → List Char
  | [] => []
  | c :: cs =>
    if h : pat ≠ [] ∧ pat.isPrefixOf (c :: cs) then
      replaceAll pat ((c :: cs).drop pat.length)
    else
      c :: replaceAll pat cs
termination_by l => l.length
decreasing_by
  · simp only [List.length_drop, List.length_cons]
    have : 0 < pat.length := List.length_pos.mpr h.1
    omega
  · simp only [List.length_cons]; omega

/-- The slices `clean_number[i:i+4]` for `i in range(0, len(clean_number), 4)`:
chunks of four characters, the last possibly shorter. -/
def chunks4 : List Char → List (List Char)
  | [] => []
  | c :: cs => (c :: cs).take 4 :: chunks4 ((c :: cs).drop 4)
termination_by l => l.length
decreasing_by
  simp only [List.length_drop, List.length_cons]; omega

/-- The `CardParser.parse_cvv` (ocr_parser.py lines 146-180): if a (truthy)
card number is supplied, delete it from the text (first as one run with
spaces removed, then chunk by chunk of four); delete every expiry-shaped
substring; return the first `\b(\d{3})\b` match.  (The source's extra
`len(match) == 3` test inside the result loop is always true, since the
pattern only ever captures three digits.) -/
def parse_cvv (text : String) (card_number : Option String := none) : Option String :=
  let t1 : List Char :=
    match card_number with
    | none => text.data
    | some cn =>
      if cn = "" then text.data
      else
        let cleanNumber := cn.data.filter (fun c => c ≠ ' ')
        let t := replaceAll cleanNumber text.data
        (chunks4 cleanNumber).foldl (fun acc ch => replaceAll ch acc) t
  let t2 := removeExpiry none t1
  (scanFirst match3At none t2).map List.asString

/-! ## JSON serialization of the card payload

`SecureCardDatabase._encrypt_data` runs
`json.dumps({'card_number': ..., 'cvv': ..., 'expiry': ...})` and
`_decrypt_data` runs `json.loads`.  The `json` module is third-party, so it
is modelled here by implementing the exact byte output of `json.dumps` with
its defaults (`ensure_ascii=True`, separators `', '`/`': '`) for this
three-string dictionary, and the matching `json.loads` string scanning
(`py_scanstring`) specialized to this fixed object shape.  A lone
surrogate in a `\uXXXX` escape, which Python would keep as an unpaired
surrogate character, is rejected (`Option.none`) because Lean strings hold
only Unicode scalar values; the serializer never emits one. -/
/-- Lowercase hexadecimal digit, as `'%04x'` prints it. -/
def hexDigitChar (n : Nat) : Char :=
  if n < 10 then Char.ofNat (48 + n) else Char.ofNat (87 + n)

/-- The four digits of `'%04x' % n`. -/
def hex4 (n : Nat) : List Char :=
  [hexDigitChar (n / 4096 % 16), hexDigitChar (n / 256 % 16),
   hexDigitChar (n / 16 % 16), hexDigitChar (n % 16)]

/-- The `json.dumps` escaping of one character (`py_encode_basestring_ascii`):
`"` and `\` and the control shorthands are backslash-escaped, other
characters outside `0x20`-`0x7e` become `\uXXXX` (a surrogate pair above
`0xffff`), and printable ASCII is kept literally. -/
def encodeJChar (c : Char) : List Char :=
  if c = '"' then ['\\', '"']
  else if c = '\\' then ['\\', '\\']
  else if c = '\x08' then ['\\', 'b']
  else if c = '\t' then ['\\', 't']
  else if c = '\n' then ['\\', 'n']
  else if c = '\x0c' then ['\\', 'f']
  else if c = '\x0d' then ['\\', 'r']
  else if c.toNat < 0x20 then '\\' :: 'u' :: hex4 c.toNat
  else if c.toNat ≤ 0x7e then [c]
  else if c.toNat < 0x10000 then '\\' :: 'u' :: hex4 c.toNat
  else
    let v := c.toNat - 0x10000
    '\\' :: 'u' :: hex4 (0xd800 + v / 1024) ++ '\\' :: 'u' :: hex4 (0xdc00 + v % 1024)

/-- The `json.dumps` escaping of a whole string (without the enclosing quotes). -/
def escapeJString : List Char → List Char
  | [] => []
  | c :: cs => encodeJChar c ++ escapeJString cs

/-- Value of one hexadecimal digit character (`json.loads` accepts both
cases). -/
def hexVal (c : Char) : Option Nat :=
  if '0' ≤ c ∧ c ≤ '9' then some (c.toNat - 48)
  else if 'a' ≤ c ∧ c ≤ 'f' then some (c.toNat - 87)
  else if 'A' ≤ c ∧ c ≤ 'F' then some (c.toNat - 55)
  else none

/-- Value of a four-digit hexadecimal escape payload. -/
def hex4Val (h1 h2 h3 h4 : Char) : Option Nat :=
  match hexVal h1, hexVal h2, hexVal h3, hexVal h4 with
  | some a, some b, some c, some d => some (a * 4096 + b * 256 + c * 16 + d)
  | _, _, _, _ => none

mutual

/-- The `json.loads` string scanning (`py_scanstring`, strict mode) after the
opening quote: literal characters up to the closing quote, backslash
escapes, `\uXXXX` with surrogate-pair combination; unescaped control
characters are an error.  Returns the decoded string and the text after
the closing quote.  The escape handling is factored into the helpers
`scanJEsc` (after a backslash), `scanJU` (after `\u`) and `scanJPair`
(low half of a surrogate pair, after a high half of value `v`). -/
def scanJString : List Char → Option (List Char × List Char)
  | [] => none
  | c :: rest =>
    if c = '"' then some ([], rest)
    else if c = '\\' then scanJEsc rest
    else if c.toNat < 0x20 then none
    else (scanJString rest).map (fun p => (c :: p.1, p.2))
termination_by l => l.length

def scanJEsc : List Char → Option (List Char × List Char)
  | [] => none
  | e :: rest2 =>
    if e = '"' then (scanJString rest2).map (fun p => ('"' :: p.1, p.2))
    else if e = '\\' then (scanJString rest2).map (fun p => ('\\' :: p.1, p.2))
    else if e = '/' then (scanJString rest2).map (fun p => ('/' :: p.1, p.2))
    else if e = 'b' then (scanJString rest2).map (fun p => ('\x08' :: p.1, p.2))
    else if e = 'f' then (scanJString rest2).map (fun p => ('\x0c' :: p.1, p.2))
    else if e = 'n' then (scanJString rest2).map (fun p => ('\n' :: p.1, p.2))
    else if e = 'r' then (scanJString rest2).map (fun p => ('\x0d' :: p.1, p.2))
    else if e = 't' then (scanJString rest2).map (fun p => ('\t' :: p.1, p.2))
    else if e = 'u' then scanJU rest2
    else none
termination_by l => l.length

def scanJU : List Char → Option (List Char × List Char)
  | h1 :: h2 :: h3 :: h4 :: r =>
    (hex4Val h1 h2 h3 h4).bind fun v =>
      if v < 0xd800 ∨ 0xe000 ≤ v then
        (scanJString r).map (fun p => (Char.ofNat v :: p.1, p.2))
      else if v ≤ 0xdbff then scanJPair v r
      else none
  | _ => none
termination_by l => l.length

def scanJPair (v : Nat) : List Char → Option (List Char × List Char)
  | e2 :: u2 :: g1 :: g2 :: g3 :: g4 :: r2 =>
    if e2 = '\\' ∧ u2 = 'u' then
      (hex4Val g1 g2 g3 g4).bind fun w =>
        if 0xdc00 ≤ w ∧ w ≤ 0xdfff then
          (scanJString r2).map
            (fun p => (Char.ofNat (0x10000 + (v - 0xd800) * 1024 + (w - 0xdc00)) :: p.1, p.2))
        else none
    else none
  | _ => none
termination_by l => l.length

end

/-- The payload dictionary `{'card_number': ..., 'cvv': ..., 'expiry': ...}`
built by `SecureCardDatabase.add_card`. -/
structure CardData where
  card_number : String
  cvv : String
  expiry : String
deriving DecidableEq, Repr

/-- The `json.dumps` of the payload dictionary (insertion order
`card_number`, `cvv`, `expiry`; default separators). -/
def jsonDumpsCard (d : CardData) : String :=
  ("\x7b\"card_number\": \"".data ++ escapeJString d.card_number.data ++
    "\", \"cvv\": \"".data ++ escapeJString d.cvv.data ++
    "\", \"expiry\": \"".data ++ escapeJString d.expiry.data ++ "\"\x7d".data).asString

/-- Consume an expected literal piece of the serialized object. -/
def dropLit (pre l : List Char) : Option (List Char) :=
  if pre.isPrefixOf l then some (l.drop pre.length) else none

/-- The `json.loads` specialized to the fixed object shape written by
`jsonDumpsCard` (the only shape ever stored by the database module). -/
def jsonLoadsCard (s : String) : Option CardData :=
  (dropLit "\x7b\"card_number\": \"".data s.data).bind fun l1 =>
  (scanJString l1).bind fun p1 =>
  (dropLit ", \"cvv\": \"".data p1.2).bind fun l2 =>
  (scanJString l2).bind fun p2 =>
  (dropLit ", \"expiry\": \"".data p2.2).bind fun l3 =>
  (scanJString l3).bind fun p3 =>
  if p3.2 = ['\x7d'] then some ⟨p1.1.asString, p2.1.asString, p3.1.asString⟩ else none

/-! ## `SecureCardDatabase` (database.py)

The store is modelled as the in-memory content of the `cards` table: a list
of rows in insertion order together with the next auto-increment id.  The
`created_at` column (filled in by the storage engine's
`DEFAULT CURRENT_TIMESTAMP`) carries no information used by any operation
and is not modelled.  The third-party `cryptography.fernet.Fernet` cipher
is modelled by its documented contract: an authenticated symmetric cipher
for which decryption with the key that produced a token recovers the exact
message, and decryption of any token not produced under the current key
fails (`InvalidToken`, here `Option.none`). -/
/-- Model of a Fernet key: an abstract identity. -/
structure FernetKey where
  keyId : Nat
deriving DecidableEq, Repr

/-- Model of a Fernet token: the message together with the identity of the
key that produced it.  A token whose `keyId` differs from the current
key's models ciphertext that cannot be decrypted (wrong key, tampering, or
corruption). -/
structure FernetToken where
  keyId : Nat
  body : String
deriving DecidableEq, Repr

/-- The `Fernet.encrypt` (contract model). -/
def fernetEncrypt (k : FernetKey) (message : String) : FernetToken :=
  ⟨k.keyId, message⟩

/-- The `Fernet.decrypt` (contract model): succeeds exactly on tokens produced
under the current key; otherwise raises `InvalidToken`, modelled as `none`. -/
def fernetDecrypt (k : FernetKey) (t : FernetToken) : Option String :=
  if t.keyId = k.keyId then some t.body else none

/-- One row of the `cards` table: `id`, `card_name`, `encrypted_data`. -/
structure CardRow where
  id : Nat
  card_name : Option String
  encrypted_data : FernetToken
deriving DecidableEq, Repr

/-- In-memory model of a `SecureCardDatabase`: the loaded key, the rows of
the `cards` table in insertion order, and the next auto-increment id. -/
structure SecureCardDatabase where
  key : FernetKey
  rows : List CardRow
  nextId : Nat
deriving DecidableEq, Repr

namespace SecureCardDatabase

/-- A freshly initialized store: empty table, auto-increment starting at 1. -/
def init (k : FernetKey) : SecureCardDatabase := ⟨k, [], 1⟩

/-- The `SecureCardDatabase._encrypt_data`: `json.dumps` then `cipher.encrypt`. -/
def encrypt_data (k : FernetKey) (data : CardData) : FernetToken :=
  fernetEncrypt k (jsonDumpsCard data)

/-- The `SecureCardDatabase._decrypt_data`: `cipher.decrypt` then `json.loads`;
a failure of either step (InvalidToken / JSONDecodeError) is `none`. -/
def decrypt_data (k : FernetKey) (t : FernetToken) : Option CardData :=
  (fernetDecrypt k t).bind (fun m => jsonLoadsCard m)

/-- The `SecureCardDatabase.add_card` (database.py lines 59-87): build the
payload dictionary, encrypt it, insert a new row, and return
`cursor.lastrowid`. -/
def add_card (db : SecureCardDatabase) (card_number cvv expiry : String)
    (card_name : Option String := none) : Nat × SecureCardDatabase :=
  let data : CardData := ⟨card_number, cvv, expiry⟩
  let encrypted := encrypt_data db.key data
  (db.nextId,
    { db with
      rows := db.rows ++ [⟨db.nextId, card_name, encrypted⟩]
      nextId := db.nextId + 1 })

/-- The `SecureCardDatabase.get_all_cards` (database.py lines 89-94):
`SELECT id, card_name, created_at FROM cards ORDER BY id` — metadata only,
no decryption. -/
def get_all_cards (db : SecureCardDatabase) : List (Nat × Option String) :=
  (db.rows.mergeSort (fun a b => a.id ≤ b.id)).map (fun r => (r.id, r.card_name))

/-- The scan loop of `card_exists`: decrypt every stored row in order and
compare space-stripped card numbers; a decryption failure raises out of
the whole operation (`Except.error`). -/
def existsLoop (k : FernetKey) (clean_number : List Char) :
    List CardRow → Except Unit Bool
  | [] => .ok false
  | r :: rs =>
    match decrypt_data k r.encrypted_data with
    | none => .error ()
    | some data =>
      if data.card_number.data.filter (fun c => c ≠ ' ') = clean_number then .ok true
      else existsLoop k clean_number rs

/-- The `SecureCardDatabase.card_exists` (database.py lines 96-120): strip
spaces from the candidate, then decrypt each stored record and compare
space-stripped stored numbers until a match is found. -/
def card_exists (db : SecureCardDatabase) (card_number : String) : Except Unit Bool :=
  existsLoop db.key (card_number.data.filter (fun c => c ≠ ' ')) db.rows

/-- The `SecureCardDatabase.get_card` (database.py lines 122-139):
`SELECT encrypted_data FROM cards WHERE id = ?` then decrypt; `None` when
the id is absent; a decryption failure raises (`Except.error`). -/
def get_card (db : SecureCardDatabase) (card_id : Nat) : Except Unit (Option CardData) :=
  match db.rows.find? (fun r => r.id == card_id) with
  | none => .ok none
  | some r =>
    match decrypt_data db.key r.encrypted_data with
    | none => .error ()
    | some data => .ok (some data)

/-- The `SecureCardDatabase.delete_card` (database.py lines 141-155): delete
the row; report whether a row was removed (`cursor.rowcount > 0`). -/
def delete_card (db : SecureCardDatabase) (card_id : Nat) : Bool × SecureCardDatabase :=
  (db.rows.any (fun r => r.id == card_id),
    { db with rows := db.rows.filter (fun r => !(r.id == card_id)) })

/-- The `SecureCardDatabase.update_card_name` (database.py lines 157-175):
rename the row; report whether a row was updated. -/
def update_card_name (db : SecureCardDatabase) (card_id : Nat) (new_name : String) :
    Bool × SecureCardDatabase :=
  (db.rows.any (fun r => r.id == card_id),
    { db with
      rows := db.rows.map
        (fun r => if r.id == card_id then { r with card_name := some new_name } else r) })

end SecureCardDatabase

/-- Well-formedness of a reachable store state: every row id is below the
auto-increment counter (so fresh ids are really fresh). -/
def DBWF (db : SecureCardDatabase) : Prop :=
  ∀ r ∈ db.rows, r.id < db.nextId

/-! ## Claim-side (specification) formulations

The spec describes the searches as "the first position where ... matches";
`specFirst` realizes that reading literally: the least index of the string
where the matcher succeeds, found by scanning the index range.  The bridge
lemma `scanFirst_eq_specFirst` connects it to the operational scanner used
by the embedded code. -/
/-- The character preceding position `i` (`p0` before position 0). -/
def prevAt (p0 : Option Char) (s : List Char) (i : Nat) : Option Char :=
  if i = 0 then p0 else s.get? (i - 1)

/-- Leftmost match, phrased as a search over match positions: the least
index `i` of the string where the matcher succeeds, with the match value
taken there. -/
def specFirstFrom (m : Option Char → List Char → Option α) (p0 : Option Char)
    (s : List Char) : Option α :=
  ((List.range s.length).find? (fun i => (m (prevAt p0 s i) (s.drop i)).isSome)).bind
    (fun i => m (prevAt p0 s i) (s.drop i))

/-- Leftmost match from the start of the string. -/
def specFirst (m : Option Char → List Char → Option α) (s : List Char) : Option α :=
  specFirstFrom m none s

/-- Claim-side algorithm for `extract_card_number`, written from the spec
text: strip whitespace and hyphens, take the first run of exactly 16
digits whose neighbours satisfy the bound class `bnd` ("non-digit or
string boundary" in the claim), regroup it by fours; otherwise search the
original text for four 4-digit groups with optional single separators
(`fallB` selects whether that fallback checks word bounds — the claim
text states none) and strip the separators from the match. -/
def specCardNumber (bnd : Char → Bool) (fallB : Bool) (text : String) : Option String :=
  let clean := pyStripSep text.data
  match specFirst (match16At bnd) clean with
  | some run => some (format4 run).asString
  | none =>
    (specFirst (matchGroupedAt fallB) text.data).map (fun g => (pyStripSep g).asString)

/-- The claim's version verbatim: runs bounded by non-digit characters,
fallback without bounds. -/
def specCardNumberClaim (text : String) : Option String :=
  specCardNumber (fun c => !c.isDigit) false text

/-- The `dropWhile` never lengthens a list. -/
def length_dropWhile_le (p : Char → Bool) (l : List Char) :
    (l.dropWhile p).length ≤ l.length := by
  induction l with
  | nil => simp [List.dropWhile]
  | cons c cs ih =>
    rw [List.dropWhile_cons]
    split
    · simp only [List.length_cons]; omega
    · simp

/-- Maximal runs of consecutive digits of a string, in order. -/
def digitRuns : List Char → List (List Char)
  | [] => []
  | c :: cs =>
    if c.isDigit then
      (c :: cs.takeWhile Char.isDigit) :: digitRuns (cs.dropWhile Char.isDigit)
    else
      digitRuns cs
termination_by l => l.length
decreasing_by
  all_goals simp only [List.length_cons]
  · exact Nat.lt_succ_of_le (length_dropWhile_le _ _)
  · omega

/-- The full 16-character chunks of a digit run, leftovers dropped. -/
def chunks16 (l : List Char) : List (List Char) :=
  if l.length < 16 then [] else l.take 16 :: chunks16 (l.drop 16)
termination_by l.length
decreasing_by
  simp only [List.length_drop]
  omega

/-- Claim-side algorithm for `extract_all_card_numbers`: the non-overlapping
16-digit runs, taken greedily left to right inside each maximal digit run
of the separator-stripped text, each regrouped by fours, in order. -/
def specAllCardNumbers (text : String) : List String :=
  ((digitRuns (pyStripSep text.data)).flatMap chunks16).map
    (fun run => (format4 run).asString)

/-- Claim-side algorithm for `extract_cvv`: remove the supplied card
number (space-stripped, as one run and as its 4-chunks), remove every
expiry-shaped substring, and take the 3-digit standalone run at the least
matching position. -/
def specCvv (text : String) (card_number : Option String) : Option String :=
  let t1 : List Char :=
    match card_number with
    | none => text.data
    | some cn =>
      let cleanNumber := cn.data.filter (fun c => c ≠ ' ')
      (chunks4 cleanNumber).foldl (fun acc ch => replaceAll ch acc)
        (replaceAll cleanNumber text.data)
  let t2 := removeExpiry none t1
  (specFirst match3At t2).map List.asString

/-- The text after a maximal digit run starts with a non-digit (or is
empty). -/
def headNotDigit : List Char → Prop
  | [] => True
  | c :: _ => c.isDigit = false

/-- Concrete store for C6: one record whose ciphertext does not decrypt
under the store key, next to one intact record. -/
def corruptRow : CardRow := ⟨1, none, ⟨1, "opaque"⟩⟩

/-- The intact record next to the corrupted one. -/
def intactRow : CardRow :=
  ⟨2, some "personal", SecureCardDatabase.encrypt_data ⟨0⟩ ⟨"4276 3801 2345 6789", "123", "12/25"⟩⟩

/-- The C6 store: a corrupted record followed by an intact one. -/
def corruptDb : SecureCardDatabase := ⟨⟨0⟩, [corruptRow, intactRow], 3⟩

/-- Incrementing the running index of `luhnChecksum` by two does not change
the sum: only the parity of the index is ever inspected. -/
theorem luhnChecksum_shift (l : List Nat) : ∀ i, luhnChecksum (i + 2) l = luhnChecksum i l := by
  induction l with
  | nil => intro i; rfl
  | cons d ds ih =>
    intro i
    have hpar : (i + 2) % 2 = i % 2 := by omega
    simp only [luhnChecksum, hpar]
    rw [show i + 2 + 1 = i + 1 + 2 by omega, ih (i + 1)]

/-- The indexed checksum loop of the source computes exactly the sum of the
claim-side pairwise Luhn transform. -/
theorem luhnChecksum_eq_spec (l : List Nat) :
    luhnChecksum 0 l = (luhnSpecTransform l).sum := by
  induction l using luhnSpecTransform.induct with
  | case1 => rfl
  | case2 d => simp [luhnChecksum, luhnSpecTransform]
  | case3 d e rest ih =>
    simp only [luhnChecksum, luhnSpecTransform, List.sum_cons]
    norm_num
    rw [show (2 : Nat) = 0 + 2 from rfl, luhnChecksum_shift rest 0, ih]

/-! ### Losslessness of the JSON string encoding -/
theorem data_asString (l : List Char) : (l.asString).data = l := rfl

theorem hexVal_hexDigitChar (k : Nat) (hk : k < 16) : hexVal (hexDigitChar k) = some k := by
  interval_cases k <;> rfl

theorem hex4Val_hex4 (n : Nat) (h : n < 65536) :
    hex4Val (hexDigitChar (n / 4096 % 16)) (hexDigitChar (n / 256 % 16))
      (hexDigitChar (n / 16 % 16)) (hexDigitChar (n % 16)) = some n := by
  unfold hex4Val
  rw [hexVal_hexDigitChar _ (by omega), hexVal_hexDigitChar _ (by omega),
    hexVal_hexDigitChar _ (by omega), hexVal_hexDigitChar _ (by omega)]
  simp only [Option.some.injEq]
  omega

/-- Unicode scalar values never lie in the surrogate gap. -/
theorem char_toNat_valid (c : Char) :
    c.toNat < 0xd800 ∨ (0xe000 ≤ c.toNat ∧ c.toNat < 0x110000) := by
  have h := c.valid
  rcases h with h | h
  · exact Or.inl h
  · exact Or.inr h

/-- Unfolding step: a backslash dispatches to the escape scanner. -/
theorem scanJString_esc (rest : List Char) : scanJString ('\\' :: rest) = scanJEsc rest := by
  simp [scanJString]

/-- Unfolding step: `\u` dispatches to the hexadecimal escape scanner. -/
theorem scanJEsc_u (rest2 : List Char) : scanJEsc ('u' :: rest2) = scanJU rest2 := by
  simp [scanJEsc]

theorem scanJEsc_quote (l : List Char) :
    scanJEsc ('"' :: l) = (scanJString l).map (fun p => ('"' :: p.1, p.2)) := by
  simp [scanJEsc]

theorem scanJEsc_backslash (l : List Char) :
    scanJEsc ('\\' :: l) = (scanJString l).map (fun p => ('\\' :: p.1, p.2)) := by
  simp [scanJEsc]

theorem scanJEsc_b (l : List Char) :
    scanJEsc ('b' :: l) = (scanJString l).map (fun p => ('\x08' :: p.1, p.2)) := by
  simp [scanJEsc]

theorem scanJEsc_t (l : List Char) :
    scanJEsc ('t' :: l) = (scanJString l).map (fun p => ('\t' :: p.1, p.2)) := by
  simp [scanJEsc]

theorem scanJEsc_n (l : List Char) :
    scanJEsc ('n' :: l) = (scanJString l).map (fun p => ('\n' :: p.1, p.2)) := by
  simp [scanJEsc]

theorem scanJEsc_f (l : List Char) :
    scanJEsc ('f' :: l) = (scanJString l).map (fun p => ('\x0c' :: p.1, p.2)) := by
  simp [scanJEsc]

theorem scanJEsc_r (l : List Char) :
    scanJEsc ('r' :: l) = (scanJString l).map (fun p => ('\x0d' :: p.1, p.2)) := by
  simp [scanJEsc]

/-- The surrogate-pair case of the round trip, factored out: a character
above the basic multilingual plane is encoded as two `\uXXXX` escapes and
decoded back by combining them. -/
theorem scanJString_encodeSur (c : Char) (l res rest : List Char)
    (h : scanJString l = some (res, rest)) (hbig : ¬ c.toNat < 0x10000) :
    scanJString (encodeJChar c ++ l) = some (c :: res, rest) := by
  have hhi : c.toNat < 0x110000 := by
    rcases char_toNat_valid c with hv | hv
    · omega
    · exact hv.2
  have h1 : ¬ c = '"' := fun e => hbig (by rw [e]; decide)
  have h2 : ¬ c = '\\' := fun e => hbig (by rw [e]; decide)
  have h3 : ¬ c = '\x08' := fun e => hbig (by rw [e]; decide)
  have h4 : ¬ c = '\t' := fun e => hbig (by rw [e]; decide)
  have h5 : ¬ c = '\n' := fun e => hbig (by rw [e]; decide)
  have h6 : ¬ c = '\x0c' := fun e => hbig (by rw [e]; decide)
  have h7 : ¬ c = '\x0d' := fun e => hbig (by rw [e]; decide)
  have h8 : ¬ c.toNat < 0x20 := by omega
  have h9 : ¬ c.toNat ≤ 0x7e := by omega
  simp only [encodeJChar, if_neg h1, if_neg h2, if_neg h3, if_neg h4, if_neg h5, if_neg h6,
    if_neg h7, if_neg h8, if_neg h9, if_neg hbig, hex4, List.cons_append, List.nil_append,
    List.append_assoc]
  have hnv : ¬(0xd800 + (c.toNat - 0x10000) / 1024 < 0xd800 ∨
      0xe000 ≤ 0xd800 + (c.toNat - 0x10000) / 1024) := by omega
  have hle : 0xd800 + (c.toNat - 0x10000) / 1024 ≤ 0xdbff := by omega
  have hw : 0xdc00 ≤ 0xdc00 + (c.toNat - 0x10000) % 1024 ∧
      0xdc00 + (c.toNat - 0x10000) % 1024 ≤ 0xdfff := ⟨by omega, by omega⟩
  have harg : 0x10000 + (0xd800 + (c.toNat - 0x10000) / 1024 - 0xd800) * 1024 +
      (0xdc00 + (c.toNat - 0x10000) % 1024 - 0xdc00) = c.toNat := by omega
  rw [scanJString_esc, scanJEsc_u]
  simp only [scanJU]
  rw [hex4Val_hex4 (0xd800 + (c.toNat - 0x10000) / 1024) (by omega), Option.some_bind]
  rw [if_neg hnv, if_pos hle]
  simp only [scanJPair, and_self, if_true]
  rw [hex4Val_hex4 (0xdc00 + (c.toNat - 0x10000) % 1024) (by omega), Option.some_bind]
  rw [if_pos hw, h, harg, Char.ofNat_toNat]
  rfl

/-- One step of the round trip: the scanner decodes `encodeJChar c` back to
`c` and continues. -/
theorem scanJString_encode (c : Char) (l res rest : List Char)
    (h : scanJString l = some (res, rest)) :
    scanJString (encodeJChar c ++ l) = some (c :: res, rest) := by
  by_cases h1 : c = '"'
  · subst h1
    simp only [encodeJChar, if_true]
    simp only [List.cons_append, List.nil_append]
    rw [scanJString_esc, scanJEsc_quote, h]
    rfl
  by_cases h2 : c = '\\'
  · subst h2
    simp only [encodeJChar, if_true]
    rw [if_neg h1]
    simp only [List.cons_append, List.nil_append]
    rw [scanJString_esc, scanJEsc_backslash, h]
    rfl
  by_cases h3 : c = '\x08'
  · subst h3
    simp only [encodeJChar, if_true]
    rw [if_neg h1, if_neg h2]
    simp only [List.cons_append, List.nil_append]
    rw [scanJString_esc, scanJEsc_b, h]
    rfl
  by_cases h4 : c = '\t'
  · subst h4
    simp only [encodeJChar, if_true]
    rw [if_neg h1, if_neg h2, if_neg h3]
    simp only [List.cons_append, List.nil_append]
    rw [scanJString_esc, scanJEsc_t, h]
    rfl
  by_cases h5 : c = '\n'
  · subst h5
    simp only [encodeJChar, if_true]
    rw [if_neg h1, if_neg h2, if_neg h3, if_neg h4]
    simp only [List.cons_append, List.nil_append]
    rw [scanJString_esc, scanJEsc_n, h]
    rfl
  by_cases h6 : c = '\x0c'
  · subst h6
    simp only [encodeJChar, if_true]
    rw [if_neg h1, if_neg h2, if_neg h3, if_neg h4, if_neg h5]
    simp only [List.cons_append, List.nil_append]
    rw [scanJString_esc, scanJEsc_f, h]
    rfl
  by_cases h7 : c = '\x0d'
  · subst h7
    simp only [encodeJChar, if_true]
    rw [if_neg h1, if_neg h2, if_neg h3, if_neg h4, if_neg h5, if_neg h6]
    simp only [List.cons_append, List.nil_append]
    rw [scanJString_esc, scanJEsc_r, h]
    rfl
  by_cases h8 : c.toNat < 0x20
  · have hlow : c.toNat < 0xd800 ∨ 0xe000 ≤ c.toNat := Or.inl (by omega)
    simp only [encodeJChar, if_neg h1, if_neg h2, if_neg h3, if_neg h4, if_neg h5, if_neg h6,
      if_neg h7, if_pos h8, hex4, List.cons_append, List.nil_append]
    rw [scanJString_esc, scanJEsc_u]
    simp only [scanJU]
    rw [hex4Val_hex4 c.toNat (by omega)]
    simp only [Option.some_bind, if_pos hlow]
    rw [h, Char.ofNat_toNat]
    rfl
  by_cases h9 : c.toNat ≤ 0x7e
  · simp only [encodeJChar, if_neg h1, if_neg h2, if_neg h3, if_neg h4, if_neg h5, if_neg h6,
      if_neg h7, if_neg h8, if_pos h9, List.cons_append, List.nil_append]
    rw [scanJString, if_neg h1, if_neg h2, if_neg h8, h]
    rfl
  by_cases h10 : c.toNat < 0x10000
  · have hval : c.toNat < 0xd800 ∨ 0xe000 ≤ c.toNat := by
      rcases char_toNat_valid c with hv | hv
      · exact Or.inl hv
      · exact Or.inr hv.1
    simp only [encodeJChar, if_neg h1, if_neg h2, if_neg h3, if_neg h4, if_neg h5, if_neg h6,
      if_neg h7, if_neg h8, if_neg h9, if_pos h10, hex4, List.cons_append, List.nil_append]
    rw [scanJString_esc, scanJEsc_u]
    simp only [scanJU]
    rw [hex4Val_hex4 c.toNat (by omega)]
    simp only [Option.some_bind, if_pos hval]
    rw [h, Char.ofNat_toNat]
    rfl
  · exact scanJString_encodeSur c l res rest h h10

/-- The scanner decodes an escaped string terminated by its closing quote,
returning the original string and the remaining text. -/
theorem scanJString_escape (s : List Char) (rest : List Char) :
    scanJString (escapeJString s ++ '"' :: rest) = some (s, rest) := by
  induction s with
  | nil =>
    rw [escapeJString, List.nil_append]
    simp [scanJString]
  | cons c cs ih =>
    rw [escapeJString, List.append_assoc]
    exact scanJString_encode c _ cs rest ih

theorem dropLit_self (pre l : List Char) : dropLit pre (pre ++ l) = some l := by
  unfold dropLit
  rw [if_pos, List.drop_left]
  rw [ List.isPrefixOf_iff_prefix]
  exact List.prefix_append pre l

/-- The serialized payload, re-associated so that each escaped value is
followed by its closing quote and the next literal piece. -/
theorem jsonDumpsCard_shape (d : CardData) :
    (jsonDumpsCard d).data =
      "\x7b\"card_number\": \"".data ++ (escapeJString d.card_number.data ++
        '"' :: (", \"cvv\": \"".data ++ (escapeJString d.cvv.data ++
        '"' :: (", \"expiry\": \"".data ++ (escapeJString d.expiry.data ++
        '"' :: ['\x7d']))))) := by
  unfold jsonDumpsCard
  rw [data_asString]
  simp only [List.append_assoc]
  rfl

/-- The `json.loads` inverts `json.dumps` on the card payload dictionary. -/
theorem jsonLoadsCard_dumps (d : CardData) : jsonLoadsCard (jsonDumpsCard d) = some d := by
  unfold jsonLoadsCard
  rw [jsonDumpsCard_shape, dropLit_self]
  simp only [Option.some_bind]
  rw [scanJString_escape]
  simp only [Option.some_bind]
  rw [dropLit_self]
  simp only [Option.some_bind]
  rw [scanJString_escape]
  simp only [Option.some_bind]
  rw [dropLit_self]
  simp only [Option.some_bind]
  rw [scanJString_escape]
  simp only [Option.some_bind, if_true]
  rfl

/-- The operational left-to-right scanner equals the least-matching-index
search. -/
theorem scanFirst_eq_specFirstFrom (m : Option Char → List Char → Option α) :
    ∀ (s : List Char) (p0 : Option Char), scanFirst m p0 s = specFirstFrom m p0 s := by
  intro s
  induction s with
  | nil => intro p0; rfl
  | cons c cs ih =>
    intro p0
    unfold specFirstFrom
    simp only [List.length_cons]
    rw [List.range_succ_eq_map, List.find?_cons]
    rw [scanFirst]
    cases hm : m p0 (c :: cs) with
    | some r =>
      have h0 : (m (prevAt p0 (c :: cs) 0) ((c :: cs).drop 0)).isSome = true := by
        simp [prevAt, hm]
      rw [h0]
      simp [prevAt, hm]
    | none =>
      have h0 : (m (prevAt p0 (c :: cs) 0) ((c :: cs).drop 0)).isSome = false := by
        simp [prevAt, hm]
      rw [h0]
      simp only [cond_false]
      rw [List.find?_map]
      have hcomp :
          ((fun i => (m (prevAt p0 (c :: cs) i) ((c :: cs).drop i)).isSome) ∘ Nat.succ) =
            (fun i => (m (prevAt (some c) cs i) (cs.drop i)).isSome) := by
        funext i
        have hp : prevAt p0 (c :: cs) (i + 1) = prevAt (some c) cs i := by
          cases i <;> rfl
        simp only [Function.comp, Nat.succ_eq_add_one, hp, List.drop_succ_cons]
      rw [hcomp, ih (some c)]
      unfold specFirstFrom
      cases hf : (List.range cs.length).find?
          (fun i => (m (prevAt (some c) cs i) (cs.drop i)).isSome) with
      | none => simp
      | some j =>
        have hp : prevAt p0 (c :: cs) (j + 1) = prevAt (some c) cs j := by
          cases j <;> rfl
        simp [Nat.succ_eq_add_one, hp]

/-- The operational scanner from the start of the string equals the
least-matching-index search. -/
theorem scanFirst_eq_specFirst (m : Option Char → List Char → Option α) (s : List Char) :
    scanFirst m none s = specFirst m s :=
  scanFirst_eq_specFirstFrom m s none

theorem headNotDigit_dropWhile (l : List Char) :
    headNotDigit (l.dropWhile Char.isDigit) := by
  induction l with
  | nil => trivial
  | cons c cs ih =>
    rw [List.dropWhile_cons]
    split
    · exact ih
    · simpa [headNotDigit] using by simp_all

/-- A digit run shorter than 16 characters, followed by a non-digit,
produces no `\d{16}` match while it is traversed. -/
theorem findAll16_short (run : List Char) :
    ∀ (rest : List Char), run.all Char.isDigit = true → run.length < 16 →
      headNotDigit rest → findAll16 (run ++ rest) = findAll16 rest := by
  induction run with
  | nil => intro rest _ _ _; rfl
  | cons d ds ih =>
    intro rest hall hlen hrest
    rw [List.cons_append, findAll16]
    rw [List.all_cons, Bool.and_eq_true] at hall
    have hcond : ((((d :: (ds ++ rest)).take 16).length == 16) &&
        ((d :: (ds ++ rest)).take 16).all Char.isDigit) = false := by
      cases rest with
      | nil =>
        rw [List.append_nil]
        have hle : (d :: ds).length ≤ 16 := by omega
        rw [List.take_of_length_le hle]
        have : ((d :: ds).length == 16) = false := by
          simp only [beq_eq_false_iff_ne, ne_eq]
          simp only [List.length_cons] at hlen ⊢
          omega
        rw [this, Bool.false_and]
      | cons r rs =>
        have hsplit : (d :: (ds ++ r :: rs)).take 16 =
            (d :: ds) ++ (r :: rs).take (16 - (d :: ds).length) := by
          rw [show d :: (ds ++ r :: rs) = (d :: ds) ++ (r :: rs) from rfl,
            List.take_append_eq_append_take,
            List.take_of_length_le (by omega : (d :: ds).length ≤ 16)]
        rw [hsplit]
        have hk : 16 - (d :: ds).length = (14 - ds.length) + 1 := by
          simp only [List.length_cons]
          simp only [List.length_cons] at hlen
          omega
        rw [hk, List.take_succ_cons]
        have hr : r.isDigit = false := hrest
        simp [List.all_append, List.all_cons, hr]
    rw [hcond, if_neg (by simp)]
    exact ih rest hall.2 (by simp only [List.length_cons] at hlen ⊢; omega) hrest

/-- Scanning a maximal digit run produces exactly its full 16-chunks, then
continues after it (induction fuel on the run length). -/
theorem findAll16_run_aux :
    ∀ (n : Nat) (run rest : List Char), run.length ≤ n → run.all Char.isDigit = true →
      headNotDigit rest → findAll16 (run ++ rest) = chunks16 run ++ findAll16 rest := by
  intro n
  induction n with
  | zero =>
    intro run rest hn hall hrest
    have hnil : run = [] := List.eq_nil_of_length_eq_zero (by omega)
    subst hnil
    simp [chunks16]
  | succ n ih =>
    intro run rest hn hall hrest
    by_cases hlen : run.length < 16
    · rw [findAll16_short run rest hall hlen hrest, chunks16, if_pos hlen, List.nil_append]
    · cases run with
      | nil => simp at hlen
      | cons d ds =>
        rw [List.cons_append, findAll16]
        have htake : (d :: (ds ++ rest)).take 16 = (d :: ds).take 16 := by
          rw [show d :: (ds ++ rest) = (d :: ds) ++ rest from rfl,
            List.take_append_of_le_length (by omega : 16 ≤ (d :: ds).length)]
        have hdrop : (d :: (ds ++ rest)).drop 16 = (d :: ds).drop 16 ++ rest := by
          rw [show d :: (ds ++ rest) = (d :: ds) ++ rest from rfl,
            List.drop_append_of_le_length (by omega : 16 ≤ (d :: ds).length)]
        have hlen16 : (((d :: (ds ++ rest)).take 16).length == 16) = true := by
          rw [htake]
          have : (List.take 16 (d :: ds)).length = 16 := by
            rw [List.length_take]
            simp only [List.length_cons] at hlen ⊢
            omega
          rw [this]
          rfl
        have halltake : ((d :: (ds ++ rest)).take 16).all Char.isDigit = true := by
          rw [htake, List.all_eq_true] at *
          intro x hx
          exact hall x (List.mem_of_mem_take hx)
        rw [hlen16, halltake, if_pos (by simp), hdrop, htake]
        have hall' : ((d :: ds).drop 16).all Char.isDigit = true := by
          rw [List.all_eq_true] at *
          intro x hx
          exact hall x (List.mem_of_mem_drop hx)
        have hlendrop : ((d :: ds).drop 16).length ≤ n := by
          rw [List.length_drop]
          simp only [List.length_cons] at hn hlen ⊢
          omega
        rw [ih ((d :: ds).drop 16) rest hlendrop hall' hrest]
        conv_rhs => rw [chunks16]
        rw [if_neg hlen]
        simp

/-- Scanning a maximal digit run produces exactly its full 16-chunks, then
continues after it. -/
theorem findAll16_run (run rest : List Char) (hall : run.all Char.isDigit = true)
    (hrest : headNotDigit rest) :
    findAll16 (run ++ rest) = chunks16 run ++ findAll16 rest :=
  findAll16_run_aux run.length run rest le_rfl hall hrest

/-- The `re.findall(r'\d{16}', ...)` computes exactly the greedy 16-chunks of
the maximal digit runs, in order. -/
theorem findAll16_eq_runs : ∀ l : List Char, findAll16 l = (digitRuns l).flatMap chunks16
  | [] => by simp [findAll16, digitRuns]
  | c :: cs => by
    by_cases hd : c.isDigit
    · have hdecomp : c :: cs = (c :: cs.takeWhile Char.isDigit) ++ cs.dropWhile Char.isDigit := by
        rw [List.cons_append, List.takeWhile_append_dropWhile]
      have hall : (c :: cs.takeWhile Char.isDigit).all Char.isDigit = true := by
        rw [List.all_cons, hd, Bool.true_and, List.all_eq_true]
        intro x hx
        exact List.mem_takeWhile_imp hx
      have hrest : headNotDigit (cs.dropWhile Char.isDigit) := headNotDigit_dropWhile cs
      calc findAll16 (c :: cs)
          = findAll16 ((c :: cs.takeWhile Char.isDigit) ++ cs.dropWhile Char.isDigit) := by
            rw [← hdecomp]
        _ = chunks16 (c :: cs.takeWhile Char.isDigit) ++
              findAll16 (cs.dropWhile Char.isDigit) := findAll16_run _ _ hall hrest
        _ = chunks16 (c :: cs.takeWhile Char.isDigit) ++
              (digitRuns (cs.dropWhile Char.isDigit)).flatMap chunks16 := by
            rw [findAll16_eq_runs (cs.dropWhile Char.isDigit)]
        _ = (digitRuns (c :: cs)).flatMap chunks16 := by
            rw [digitRuns, if_pos hd, List.flatMap_cons]
    · rw [findAll16, digitRuns, if_neg hd]
      have hcond : ((((c :: cs).take 16).length == 16) &&
          ((c :: cs).take 16).all Char.isDigit) = false := by
        have hstep : (c :: cs).take 16 = c :: cs.take 15 := rfl
        have : c.isDigit = false := by simp [hd]
        rw [hstep, List.all_cons, this, Bool.false_and, Bool.and_false]
      rw [hcond, if_neg (by simp)]
      exact findAll16_eq_runs cs
termination_by l => l.length
decreasing_by
  · exact Nat.lt_succ_of_le (length_dropWhile_le _ _)
  · simp only [List.length_cons]; omega

/-! ## The claims -/
/-- C1: for every payload (card_number, cvv, expiry) and optional label,
`get_record` on the id returned by `add_record` returns exactly that
payload: serialization and encryption round-trip losslessly through the
store. -/
theorem claim1_add_get_roundtrip (db : SecureCardDatabase)
    (card_number cvv expiry : String) (card_name : Option String) (hwf : DBWF db) :
    (db.add_card card_number cvv expiry card_name).2.get_card
        (db.add_card card_number cvv expiry card_name).1 =
      .ok (some ⟨card_number, cvv, expiry⟩) := by
  unfold SecureCardDatabase.add_card SecureCardDatabase.get_card
  simp only []
  rw [List.find?_append]
  have hnone : db.rows.find? (fun r => r.id == db.nextId) = none := by
    rw [List.find?_eq_none]
    intro r hr
    have := hwf r hr
    simp only [beq_iff_eq]
    omega
  rw [hnone]
  simp only [Option.none_or, List.find?_cons, beq_self_eq_true, cond_true]
  simp [SecureCardDatabase.decrypt_data, SecureCardDatabase.encrypt_data, fernetDecrypt,
    fernetEncrypt, jsonLoadsCard_dumps]

/-- Witness for C1 on a concrete fresh store and payload. -/
theorem claim1_witness :
    ((SecureCardDatabase.init ⟨0⟩).add_card "4276 3801 2345 6789" "123" "12/25" none).2.get_card
        ((SecureCardDatabase.init ⟨0⟩).add_card "4276 3801 2345 6789" "123" "12/25" none).1 =
      .ok (some ⟨"4276 3801 2345 6789", "123", "12/25"⟩) :=
  claim1_add_get_roundtrip (SecureCardDatabase.init ⟨0⟩) "4276 3801 2345 6789" "123" "12/25"
    none (by intro r hr; simp [SecureCardDatabase.init] at hr)

/-- C2: `validate_luhn` strips non-digits, rejects lengths other than 16,
and otherwise accepts exactly the strings whose digits satisfy the
reference Luhn rule (double every second digit from the second-from-right,
subtract 9 above 9, sum divisible by 10). -/
theorem claim2_validate_luhn_iff (s : String) :
    validate_card_number s = true ↔
      ((s.data.filter Char.isDigit).length = 16 ∧
        luhnSpecHolds ((s.data.filter Char.isDigit).map digitVal)) := by
  unfold validate_card_number
  by_cases hlen : (s.data.filter Char.isDigit).length = 16
  · rw [if_neg (by omega)]
    rw [luhnChecksum_eq_spec]
    unfold luhnSpecHolds
    simp [hlen]
  · rw [if_pos (by omega)]
    simp [hlen]

/-- C3 counterexample: the claim calls `"4276380123456789"` a known-valid
Luhn vector, but `validate_luhn` returns false on it (its Luhn sum is 82). -/
theorem claim3_counterexample : validate_card_number "4276380123456789" = false := by decide

/-- C3 amended: both `"4276380123456789"` and the mutated
`"4276380123456788"` fail the checksum (the nearby `"4276380123456787"`
is the valid completion). -/
theorem claim3_amended :
    validate_card_number "4276380123456789" = false ∧
    validate_card_number "4276380123456788" = false ∧
    validate_card_number "4276380123456787" = true := by
  refine ⟨?_, ?_, ?_⟩ <;> decide

/-- C4 counterexample: the claim says the 16-digit run may be bounded by
any non-digit, but the code requires a non-word bound (`\b`): on
`"x1234567812345678"` the claim-side algorithm extracts a number while
`parse_card_number` returns `None`. -/
theorem claim4_counterexample :
    parse_card_number "x1234567812345678" = none ∧
    specCardNumberClaim "x1234567812345678" = some "1234 5678 1234 5678" := by
  refine ⟨?_, ?_⟩ <;> rfl

/-- C4 amended: `extract_card_number` behaves exactly as the claim's
algorithm once "bounded by non-digit" is read as "bounded by non-word
character" (letters, digits and underscore are word characters) and the
same word bounds are required of the fallback group pattern. -/
theorem claim4_amended (text : String) :
    parse_card_number text = specCardNumber notWordB true text := by
  unfold parse_card_number specCardNumber
  simp only [scanFirst_eq_specFirst]

/-- C9: `extract_all_card_numbers` returns exactly the greedy
non-overlapping 16-digit runs of the separator-stripped text (the full
16-chunks of each maximal digit run, in order), each regrouped by fours,
and the empty list when there is none. -/
theorem claim9_all_card_numbers (text : String) :
    parse_all_card_numbers text = specAllCardNumbers text := by
  unfold parse_all_card_numbers specAllCardNumbers
  rw [findAll16_eq_runs]

theorem replaceAll_nil : ∀ l : List Char, replaceAll [] l = l := by
  intro l
  induction l with
  | nil => rw [replaceAll]
  | cons c cs ih => rw [replaceAll, dif_neg (by simp), ih]

/-- C7 general part: `extract_cvv` equals the claim-side pipeline (card
number removal, expiry removal, least standalone 3-digit position) for
every text and optional card number. -/
theorem parse_cvv_eq_specCvv (text : String) (cn : Option String) :
    parse_cvv text cn = specCvv text cn := by
  cases cn with
  | none => simp only [parse_cvv, specCvv, scanFirst_eq_specFirst]
  | some c =>
    by_cases hc : c = ""
    · subst hc
      simp [parse_cvv, specCvv, replaceAll_nil, chunks4, scanFirst_eq_specFirst]
    · simp only [parse_cvv, specCvv, if_neg hc, scanFirst_eq_specFirst]

/-- C7 counterexample: on the spec's scenario text, `extract_card_number`
returns the separator-stripped `"4276380123456789"` (through the fallback
pattern, because the stripped text contains an 18-digit run), not the
spaced `"4276 3801 2345 6789"` the claim states. -/
theorem claim7_counterexample :
    parse_card_number "4276 3801 2345 6789 12/25 123" = some "4276380123456789" ∧
    parse_card_number "4276 3801 2345 6789 12/25 123" ≠ some "4276 3801 2345 6789" := by
  refine ⟨rfl, by decide⟩

/-- C7 amended: `extract_cvv` removes the supplied card number (as one run
and as 4-chunks), strips expiry-shaped substrings, and returns the first
standalone 3-digit run; on the scenario text the extractors return
`"4276380123456789"` (separator-stripped, via the fallback), `"12/25"`,
and `"123"` for the CVV given that extracted number. -/
theorem claim7_amended :
    (∀ (text : String) (cn : Option String), parse_cvv text cn = specCvv text cn) ∧
    parse_card_number "4276 3801 2345 6789 12/25 123" = some "4276380123456789" ∧
    parse_expiry "4276 3801 2345 6789 12/25 123" = some "12/25" ∧
    parse_cvv "4276 3801 2345 6789 12/25 123" (some "4276380123456789") = some "123" := by
  refine ⟨parse_cvv_eq_specCvv, rfl, rfl, ?_⟩
  simp [parse_cvv, replaceAll, chunks4, removeExpiry, matchExpiryAt, scanFirst, match3At,
    monthOk, isExpSep, boundaryBefore, boundaryAfterL, notWordB, isWordChar, isPySpace]
  rfl

/-- C8: on input with no digits at all the three extractors return the
explicit no-value result (`none`); in the embedding all extractors are
total functions into `Option`, so no input can raise. -/
theorem claim8_no_match_absent :
    parse_card_number "hello world" = none ∧
    parse_expiry "hello world" = none ∧
    parse_cvv "hello world" none = none := by
  refine ⟨rfl, rfl, ?_⟩
  simp [parse_cvv, removeExpiry, matchExpiryAt, scanFirst, match3At,
    monthOk, isExpSep, boundaryBefore, boundaryAfterL, notWordB, isWordChar, isPySpace]

/-- C10: on a formatted card number with no expiry, `extract_expiry` finds
`"12/34"` inside the card digits ("12" is a valid month, "34" the year,
with the group bounds serving as `\b`), rather than returning absent. -/
theorem claim10_expiry_from_card_digits :
    parse_expiry "1234 5678 9012 3456" = some "12/34" := rfl

/-- The scan loop of `record_exists` reaches a matching freshly appended
record when every earlier record decrypts. -/
theorem existsLoop_append_last (k : FernetKey) (clean : List Char) (rows : List CardRow)
    (g : CardRow) (d : CardData)
    (hdec : ∀ r ∈ rows, (SecureCardDatabase.decrypt_data k r.encrypted_data).isSome = true)
    (hg : SecureCardDatabase.decrypt_data k g.encrypted_data = some d)
    (hmatch : d.card_number.data.filter (fun c => c ≠ ' ') = clean) :
    SecureCardDatabase.existsLoop k clean (rows ++ [g]) = .ok true := by
  induction rows with
  | nil =>
    simp only [List.nil_append, SecureCardDatabase.existsLoop, hg, hmatch]
    simp
  | cons r rs ih =>
    obtain ⟨dr, hdr⟩ := Option.isSome_iff_exists.mp (hdec r (by simp))
    rw [List.cons_append, SecureCardDatabase.existsLoop]
    rw [hdr]
    by_cases hm : dr.card_number.data.filter (fun c => c ≠ ' ') = clean
    · simp only [if_pos hm]
    · simp only [if_neg hm]
      exact ih (fun r hr => hdec r (by simp [hr]))

/-- C5 counterexample: the claim quantifies over all whitespace, but the
store normalizes card numbers by removing only spaces: two renderings of
the same digits that differ by a tab character are digit-for-digit equal
after removing whitespace, yet `record_exists` does not relate them. -/
theorem claim5_counterexample :
    ("4276\t3801 2345 6789".data.filter (fun c => !isPySpace c) =
      "4276 3801 2345 6789".data.filter (fun c => !isPySpace c)) ∧
    ((SecureCardDatabase.init ⟨0⟩).add_card "4276 3801 2345 6789" "123" "12/25" none).2.card_exists
      "4276\t3801 2345 6789" = .ok false := by
  refine ⟨rfl, ?_⟩
  have hdec : SecureCardDatabase.decrypt_data (⟨0⟩ : FernetKey)
      (SecureCardDatabase.encrypt_data ⟨0⟩ ⟨"4276 3801 2345 6789", "123", "12/25"⟩) =
      some ⟨"4276 3801 2345 6789", "123", "12/25"⟩ := by
    simp [SecureCardDatabase.decrypt_data, SecureCardDatabase.encrypt_data, fernetDecrypt,
      fernetEncrypt, jsonLoadsCard_dumps]
  simp only [SecureCardDatabase.card_exists, SecureCardDatabase.add_card,
    SecureCardDatabase.init, List.nil_append, SecureCardDatabase.existsLoop, hdec]
  rw [if_neg (by decide)]

/-- C5 amended: after `add_record`, `record_exists` returns true for any
rendering of the number that agrees digit-for-digit after removing SPACE
characters (the only whitespace the store normalizes), provided the
records already in the store decrypt under the current key (as all records
written by this store do). -/
theorem claim5_amended (db : SecureCardDatabase) (card_number cvv expiry : String)
    (card_name : Option String) (cn' : String)
    (hdec : ∀ r ∈ db.rows, (SecureCardDatabase.decrypt_data db.key r.encrypted_data).isSome = true)
    (hnorm : cn'.data.filter (fun c => c ≠ ' ') = card_number.data.filter (fun c => c ≠ ' ')) :
    (db.add_card card_number cvv expiry card_name).2.card_exists cn' = .ok true := by
  unfold SecureCardDatabase.add_card SecureCardDatabase.card_exists
  simp only []
  rw [hnorm]
  exact existsLoop_append_last db.key _ db.rows _ ⟨card_number, cvv, expiry⟩ hdec
    (by simp [SecureCardDatabase.decrypt_data, SecureCardDatabase.encrypt_data, fernetDecrypt,
      fernetEncrypt, jsonLoadsCard_dumps])
    rfl

/-- Witness for C5 (amended): a space-formatted rendering of a number
stored bare is found by `record_exists`. -/
theorem claim5_witness :
    ("4276 3801 2345 6789".data.filter (fun c => c ≠ ' ') =
      "4276380123456789".data.filter (fun c => c ≠ ' ')) ∧
    ((SecureCardDatabase.init ⟨0⟩).add_card "4276380123456789" "123" "12/25" none).2.card_exists
      "4276 3801 2345 6789" = .ok true :=
  ⟨rfl, claim5_amended (SecureCardDatabase.init ⟨0⟩) "4276380123456789" "123" "12/25" none
    "4276 3801 2345 6789" (by intro r hr; simp [SecureCardDatabase.init] at hr) rfl⟩

/-- The `find?` by key returns the row itself when the key occurs exactly once. -/
theorem find?_of_nodup (rows : List CardRow) (r : CardRow) (hin : r ∈ rows)
    (hnod : (rows.map CardRow.id).Nodup) :
    rows.find? (fun x => x.id == r.id) = some r := by
  induction rows with
  | nil => simp at hin
  | cons a rs ih =>
    rw [List.map_cons, List.nodup_cons] at hnod
    rcases List.mem_cons.mp hin with h | h
    · subst h
      rw [List.find?_cons_of_pos _ (by simp)]
    · have hne : (a.id == r.id) = false := by
        simp only [beq_eq_false_iff_ne, ne_eq]
        intro he
        exact hnod.1 (he ▸ List.mem_map_of_mem CardRow.id h)
      rw [List.find?_cons_of_neg _ (by simp [hne])]
      exact ih h hnod.2

/-- C6 counterexample: with a corrupted record present, `record_exists` —
an operation other than requesting that record by id — also fails, because
it decrypts every stored record during its scan. -/
theorem claim6_counterexample :
    fernetDecrypt corruptDb.key corruptRow.encrypted_data = none ∧
    corruptDb.card_exists "1111" = .error () := by
  refine ⟨rfl, ?_⟩
  simp [SecureCardDatabase.card_exists, corruptDb, SecureCardDatabase.existsLoop,
    SecureCardDatabase.decrypt_data, corruptRow, fernetDecrypt]

/-- C6 amended: a record whose ciphertext cannot be decrypted makes exactly
the operations that decrypt it fail: `get_record` of its id errors (and
`record_exists` scans can error, as the counterexample shows), while
`get_record` of any other decryptable record succeeds, listing returns
every record without decrypting, and delete/rename of the corrupted record
succeed. -/
theorem claim6_amended (db : SecureCardDatabase) (r r' : CardRow) (d : CardData)
    (hr : r ∈ db.rows) (hbad : fernetDecrypt db.key r.encrypted_data = none)
    (hnod : (db.rows.map CardRow.id).Nodup) (hr' : r' ∈ db.rows)
    (hgood : SecureCardDatabase.decrypt_data db.key r'.encrypted_data = some d) :
    db.get_card r.id = .error () ∧
    db.get_card r'.id = .ok (some d) ∧
    db.get_all_cards.length = db.rows.length ∧
    (db.delete_card r.id).1 = true ∧
    (db.update_card_name r.id "renamed").1 = true := by
  refine ⟨?_, ?_, ?_, ?_, ?_⟩
  · unfold SecureCardDatabase.get_card
    rw [find?_of_nodup db.rows r hr hnod]
    simp [SecureCardDatabase.decrypt_data, hbad]
  · unfold SecureCardDatabase.get_card
    rw [find?_of_nodup db.rows r' hr' hnod]
    simp [hgood]
  · unfold SecureCardDatabase.get_all_cards
    rw [List.length_map, List.length_mergeSort]
  · unfold SecureCardDatabase.delete_card
    simp only []
    rw [List.any_eq_true]
    exact ⟨r, hr, by simp⟩
  · unfold SecureCardDatabase.update_card_name
    simp only []
    rw [List.any_eq_true]
    exact ⟨r, hr, by simp⟩

/-- Witness for C6 (amended) on the concrete corrupted store. -/
theorem claim6_witness :
    corruptDb.get_card 1 = .error () ∧
    corruptDb.get_card 2 = .ok (some ⟨"4276 3801 2345 6789", "123", "12/25"⟩) ∧
    corruptDb.get_all_cards.length = corruptDb.rows.length ∧
    (corruptDb.delete_card 1).1 = true ∧
    (corruptDb.update_card_name 1 "renamed").1 = true :=
  claim6_amended corruptDb corruptRow intactRow ⟨"4276 3801 2345 6789", "123", "12/25"⟩
    (by simp [corruptDb]) rfl (by simp [corruptDb, corruptRow, intactRow])
    (by simp [corruptDb])
    (by simp [SecureCardDatabase.decrypt_data, intactRow, corruptDb,
      SecureCardDatabase.encrypt_data, fernetDecrypt, fernetEncrypt, jsonLoadsCard_dumps])
end CardBot


